import Mathlib

/-!
Verification of the biweekly rotation calendar projector of `api_server`.

The development shallowly embeds the Go sources:
  * `internal/utils/utility.go` — `MonthStringToNumber`, `WeekTypeForDate`,
    `CalculateHours`, `HashJSON`/`normalize`;
  * `pkg/api/service/service.go` — `LoadEmployeesFromInput`,
    `loadWeeklySchedules`, `FetchEmployeeSchedule`, `CalculateMonthlyHours`,
    `FetchEmployeeFormattedABWeek`.

Conventions:
  * Calendar dates are day numbers: days since 1970-01-01 (Unix epoch) in the
    proleptic Gregorian calendar, which is the calendar Go's `time` package
    implements.  Go stores dates as `time.Time`; every date-valued field below
    holds the day number of that date, and the `"YYYY-MM-DD"` strings the Go
    code renders stand in bijection with these day numbers.
  * Go's integer division and remainder truncate toward zero, so every
    division taken from Go code is `Int.tdiv` / `Int.tmod` here.
  * Machine floats returned by `time.Duration.Hours()` are modelled as exact
    rationals; the repository only ever produces whole minutes, whose hour
    counts are exact.
-/

namespace ApiServer

set_option maxRecDepth 20000

/-! ## Definitions -/

/-! ### Gregorian calendar arithmetic

Go's `time` package converts between calendar dates and linear day counts
with the standard Gregorian era decomposition (400/100/4-year cycles).  The
functions below are the standard civil-from-days / days-from-civil
algorithms for the same calendar, phrased with truncating division exactly
as Go's arithmetic behaves; they are observationally the conversions that
`time.Date`, `time.Time.Weekday` and `time.Time.ISOWeek` perform. -/

/-- Era (400-year cycle index, floored) of the March-shifted year `a`. -/
def eraOf (a : Int) : Int := Int.tdiv (if 0 ≤ a then a else a - 399) 400

/-- Year-of-era, in `0..399`. -/
def yoeOf (a : Int) : Int := a - eraOf a * 400

/-- Day count contributed by whole years up to the March-shifted year `a`. -/
def yearDays (a : Int) : Int :=
  eraOf a * 146097 + yoeOf a * 365 + Int.tdiv (yoeOf a) 4 - Int.tdiv (yoeOf a) 100

/-- Day-of-year offset of civil `(m, d)` relative to March 1. -/
def monthDoy (m d : Int) : Int :=
  Int.tdiv (153 * (if 2 < m then m - 3 else m + 9) + 2) 5 + d - 1

/-- Day number (days since 1970-01-01) of the civil date `(y, m, d)`.
The formula is linear in `d` and also valid for month `13` (January of the
next year) and day `0` (the day before the first of the month), matching the
normalization Go's `time.Date` applies to out-of-range components. -/
def daysFromCivil (y m d : Int) : Int :=
  yearDays (if m ≤ 2 then y - 1 else y) + monthDoy m d - 719468

/-- Civil year of the day number `z` (the month and day components are not
needed by the embedded code). -/
def yearOfDay (z : Int) : Int :=
  let z2 := z + 719468
  let era := Int.tdiv (if 0 ≤ z2 then z2 else z2 - 146096) 146097
  let doe := z2 - era * 146097
  let yoe := Int.tdiv (doe - Int.tdiv doe 1460 + Int.tdiv doe 36524 - Int.tdiv doe 146096) 365
  let y := yoe + era * 400
  let doy := doe - (365 * yoe + Int.tdiv yoe 4 - Int.tdiv yoe 100)
  let mp := Int.tdiv (5 * doy + 2) 153
  let m := if mp < 10 then mp + 3 else mp - 9
  if m ≤ 2 then y + 1 else y

/-- Go `time.Time.Weekday` as an index, `0 = Sunday` … `6 = Saturday`.
1970-01-01 (day number `0`) was a Thursday (`4`). -/
def weekdayIdx (z : Int) : Int := (z + 4) % 7

/-- Go `Weekday.String()` for the day number `z`. -/
def weekdayName (z : Int) : String :=
  let w := weekdayIdx z
  if w = 0 then "Sunday"
  else if w = 1 then "Monday"
  else if w = 2 then "Tuesday"
  else if w = 3 then "Wednesday"
  else if w = 4 then "Thursday"
  else if w = 5 then "Friday"
  else "Saturday"

/-- Zero-based day of year of the day number `z`. -/
def ydayOfDay (z : Int) : Int := z - daysFromCivil (yearOfDay z) 1 1

/-- The week component of Go `time.Time.ISOWeek()`: shift the date to the
Thursday of its Monday-based week (Sunday shifts back by 3), then return
`yday / 7 + 1` of that Thursday, exactly as `Time.ISOWeek` computes it. -/
def isoWeekOfDay (z : Int) : Int :=
  let wd := weekdayIdx z
  let shift := if wd = 0 then -3 else 4 - wd
  let th := z + shift
  Int.tdiv (ydayOfDay th) 7 + 1

/-- Go's Gregorian leap-year predicate (`time.isLeap`), used by the
spec-side month-length table and by date validation in `time.Parse`. -/
def isLeapYear (y : Int) : Bool := y % 4 = 0 && (y % 100 ≠ 0 || y % 400 = 0)

/-- Number of days of month `m` of year `y` by the calendar rule
(`time.daysIn`); also the spec-side count the projection length is compared
against. -/
def daysInMonthSpec (y m : Int) : Int :=
  if m = 2 then (if isLeapYear y then 29 else 28)
  else if m = 4 ∨ m = 6 ∨ m = 9 ∨ m = 11 then 30
  else 31

/-! ### `WeekTypeForDate` (utility.go lines 26–46) -/

/-- Embeds `util.WeekTypeForDate`: ISO week numbers of both dates, difference
adjusted by `+52` when negative, then `"A"` on even parity, `"B"` otherwise.
Go's `%` is truncating remainder, hence `Int.tmod`. -/
def WeekTypeForDate (startDate currentDate : Int) : String :=
  let startWeek := isoWeekOfDay startDate
  let currentWeek := isoWeekOfDay currentDate
  let weeksSinceStart := currentWeek - startWeek
  let weeksAdj := if weeksSinceStart < 0 then weeksSinceStart + 52 else weeksSinceStart
  if Int.tmod weeksAdj 2 = 0 then "A" else "B"

/-! ### Clock-time parsing and formatting

Go's `time.Parse("15:04", s)` accepts one or two digits for the hour
(`getnum` with `fixed = false`), a literal `:`, exactly two digits for the
minute (`fixed = true`), and no trailing text; the hour must be below 24 and
the minute below 60. -/

/-- Numeric value of a decimal digit character. -/
def digitVal (c : Char) : Nat := c.toNat - 48

/-- Minute-and-trailer part of `time.Parse("15:04", s)`: after the hour `h`
has been read (and range-checked below 24, as Go does before consuming the
colon), expect `":"`, exactly two digits below 60, and end of input. -/
def parseHMRest (h : Nat) (l : List Char) : Option (Nat × Nat) :=
  if h < 24 then
    match l with
    | ':' :: c3 :: c4 :: rest3 =>
      if c3.isDigit && c4.isDigit && rest3.isEmpty then
        if digitVal c3 * 10 + digitVal c4 < 60 then some (h, digitVal c3 * 10 + digitVal c4)
        else none
      else none
    | _ => none
  else none

/-- Embeds `time.Parse("15:04", s)`, returning the parsed `(hour, minute)`
or `none` on any parse or range error.  The hour may be one or two digits
(`getnum` with `fixed = false`), the minute exactly two. -/
def parseHM (s : String) : Option (Nat × Nat) :=
  match s.data with
  | [] => none
  | c1 :: rest =>
    if c1.isDigit then
      match rest with
      | c2 :: rest2 =>
        if c2.isDigit then parseHMRest (digitVal c1 * 10 + digitVal c2) rest2
        else parseHMRest (digitVal c1) rest
      | [] => parseHMRest (digitVal c1) []
    else none

/-- Two-digit zero-padded decimal rendering, as Go's `Format("15:04")`
produces for each component. -/
def pad2 (n : Nat) : String := if n < 10 then "0" ++ toString n else toString n

/-- Go `t.Format("15:04")` for a stored time-of-day `(hour, minute)`. -/
def formatHM (t : Nat × Nat) : String := pad2 t.1 ++ ":" ++ pad2 t.2

/-! ### `CalculateHours` (utility.go lines 165–185) -/

/-- Embeds `util.CalculateHours`: parse both endpoints, add 24 hours to the
end time when it is before the start time, and return the elapsed duration
in hours.  `time.Duration.Hours()` is a float64; whole-minute durations are
exact, modelled as rationals. -/
def CalculateHours (startStr endStr : String) : Option ℚ :=
  match parseHM startStr with
  | none => none
  | some st =>
    match parseHM endStr with
    | none => none
    | some en =>
      let s : ℚ := st.1 * 60 + st.2
      let e : ℚ := en.1 * 60 + en.2
      let e2 := if e < s then e + 1440 else e
      some ((e2 - s) / 60)

/-! ### `MonthStringToNumber` (utility.go lines 16–23)

`time.Parse("January", month)` looks the value up in the long month-name
table: the candidate must start with the month name under Go's byte-level
case-insensitive comparison (`time.match`), the first table entry that fits
wins, and any trailing text fails the parse.  On any parse error the Go
function logs and returns 1 (January); on success it returns the month
number. -/

/-- Codepoints of a string; for the ASCII month names these are exactly the
bytes Go compares. -/
def strCodes (s : String) : List Nat := s.data.map Char.toNat

/-- Embeds `time.match` positionally: first list is the candidate prefix,
second the table entry; on byte mismatch both are ORed with `0x20` and must
be equal lowercase ASCII letters, the range being checked on the candidate
byte. -/
def matchCaseFold : List Nat → List Nat → Bool
  | [], [] => true
  | c1 :: t1, c2 :: t2 =>
    (if c1 = c2 then true
     else
       decide ((c1 ||| 32) = (c2 ||| 32) ∧ 97 ≤ (c1 ||| 32) ∧ (c1 ||| 32) ≤ 122)) &&
    matchCaseFold t1 t2
  | _, _ => false

def longMonthNames : List String :=
  ["January", "February", "March", "April", "May", "June",
   "July", "August", "September", "October", "November", "December"]

/-- Embeds `time.lookup` over the month table: first matching name wins,
returning its 1-based index and the unconsumed remainder of the value. -/
def lookupMonthAux : Nat → List String → List Nat → Option (Nat × List Nat)
  | _, [], _ => none
  | i, v :: rest, val =>
    if decide (val.length ≥ (strCodes v).length) &&
        matchCaseFold (val.take (strCodes v).length) (strCodes v) then
      some (i, val.drop (strCodes v).length)
    else lookupMonthAux (i + 1) rest val

/-- Embeds `util.MonthStringToNumber`: parse the month name, default to
January (1) on any error — including unrecognized names. -/
def MonthStringToNumber (month : String) : Int :=
  match lookupMonthAux 1 longMonthNames (strCodes month) with
  | some (m, []) => (m : Int)
  | _ => 1

/-! ### Data model (db/model/model.go) -/

/-- Persisted schedule row (`model.Schedule`): owning employee, week phase
tag, weekday name, and the two stored times-of-day (`CustomTime` wraps a
clock time; modelled as an `(hour, minute)` pair). -/
structure Schedule where
  employeeID : Nat
  weekType : String
  dayName : String
  startTime : Nat × Nat
  endTime : Nat × Nat
deriving Repr, DecidableEq

/-- Employee record (`model.Employee`), with the schedule rows GORM preloads
for `GetEmployeeWithSchedules`.  `startDate` is the day number of the
employee's anchor date. -/
structure Employee where
  id : Nat
  name : String
  startDate : Int
  schedules : List Schedule
deriving Repr, DecidableEq

/-- JSON-facing time slot (`model.TimeSlot`), both fields `"HH:MM"` text. -/
structure TimeSlot where
  start : String
  «end» : String
deriving Repr, DecidableEq

/-- Computed per-day projection (`model.MonthlySchedule`); `date` is the day
number whose Go rendering is the `"YYYY-MM-DD"` string. -/
structure MonthlySchedule where
  date : Int
  dayName : String
  holidayName : String
  timeSlots : List TimeSlot
deriving Repr, DecidableEq

/-- Holiday record (`model.Holiday`): date (day number) and display name. -/
structure Holiday where
  holidayDate : Int
  holidayName : String
deriving Repr, DecidableEq

/-- Raw client-submitted slot (`model.ScheduleInput`). -/
structure ScheduleInput where
  start : String
  «end» : String
deriving Repr, DecidableEq

/-- Raw client-submitted week (`model.WeeklyScheduleInput`), one slot list
per weekday. -/
structure WeeklyScheduleInput where
  monday : List ScheduleInput
  tuesday : List ScheduleInput
  wednesday : List ScheduleInput
  thursday : List ScheduleInput
  friday : List ScheduleInput
  saturday : List ScheduleInput
  sunday : List ScheduleInput
deriving Repr, DecidableEq

/-- Raw client-submitted employee (`model.EmployeeInput`).  `weeks` is a Go
map from week-type tag to weekly schedule; Go iterates it in unspecified
order, modelled here as an association list in a fixed representative
order.  The claims proved below do not depend on that order. -/
structure EmployeeInput where
  name : String
  startDate : String
  weeks : List (String × WeeklyScheduleInput)
deriving Repr, DecidableEq

/-! ### Date parsing for `"2006-01-02"` -/

/-- Embeds `time.Parse("2006-01-02", s)`: four year digits, two month
digits (1..12), two day digits (1..days-in-month), nothing else; returns the
parsed day number. -/
def parseDate (s : String) : Option Int :=
  match s.data with
  | [y1, y2, y3, y4, '-', m1, m2, '-', d1, d2] =>
    if y1.isDigit && y2.isDigit && y3.isDigit && y4.isDigit &&
        m1.isDigit && m2.isDigit && d1.isDigit && d2.isDigit then
      let y : Int := (digitVal y1 * 1000 + digitVal y2 * 100 + digitVal y3 * 10 + digitVal y4 : Nat)
      let m : Int := (digitVal m1 * 10 + digitVal m2 : Nat)
      let d : Int := (digitVal d1 * 10 + digitVal d2 : Nat)
      if 1 ≤ m ∧ m ≤ 12 ∧ 1 ≤ d ∧ d ≤ daysInMonthSpec y m then
        some (daysFromCivil y m d)
      else none
    else none
  | _ => none

/-! ### The persistent store, as the service observes it

The repository (`db/repo/repo.go`) is GORM over PostgreSQL; the service
only ever appends employee records (`LoadEmployees` = `db.Create`) and
schedule rows (`UpdateSchedule` = `db.Save` of a row with zero primary key,
an insert).  A `Store` is the visible state; mutations performed before an
error are not rolled back, exactly as the per-row GORM calls behave. -/

/-- Employee row as persisted (no preloaded schedules). -/
structure StoredEmployee where
  id : Nat
  name : String
  startDate : Int
deriving Repr, DecidableEq

structure Store where
  employees : List StoredEmployee
  schedules : List Schedule
deriving Repr, DecidableEq

/-! ### `LoadEmployeesFromInput` (service.go lines 27–92) -/

/-- The fixed weekday decomposition of a weekly input, as built in
`loadWeeklySchedules`.  Go ranges over this 7-entry map in unspecified
order; Monday…Sunday is the representative order used here. -/
def dayLists (w : WeeklyScheduleInput) : List (String × List ScheduleInput) :=
  [("Monday", w.monday), ("Tuesday", w.tuesday), ("Wednesday", w.wednesday),
   ("Thursday", w.thursday), ("Friday", w.friday), ("Saturday", w.saturday),
   ("Sunday", w.sunday)]

/-- Inner slot loop of `loadWeeklySchedules`: parse both times of each slot
("15:04"); on failure return the error with the store as mutated so far; on
success append the row (`repo.UpdateSchedule`) and continue. -/
def loadSlots (st : Store) (employeeID : Nat) (weekType dayName : String) :
    List ScheduleInput → Store × Option String
  | [] => (st, none)
  | slot :: rest =>
    match parseHM slot.start with
    | none => (st, some ("cannot parse " ++ slot.start))
    | some stt =>
      match parseHM slot.«end» with
      | none => (st, some ("cannot parse " ++ slot.«end»))
      | some en =>
        loadSlots
          { st with schedules := st.schedules ++
              [{ employeeID := employeeID, weekType := weekType, dayName := dayName,
                 startTime := stt, endTime := en }] }
          employeeID weekType dayName rest

/-- Day loop of `loadWeeklySchedules`. -/
def loadDays (st : Store) (employeeID : Nat) (weekType : String) :
    List (String × List ScheduleInput) → Store × Option String
  | [] => (st, none)
  | (dayName, slots) :: rest =>
    let r := loadSlots st employeeID weekType dayName slots
    match r.2 with
    | some e => (r.1, some e)
    | none => loadDays r.1 employeeID weekType rest

/-- Embeds `EmployeeService.loadWeeklySchedules`. -/
def loadWeeklySchedules (st : Store) (employeeID : Nat) (weekType : String)
    (w : WeeklyScheduleInput) : Store × Option String :=
  loadDays st employeeID weekType (dayLists w)

/-- Week loop of `LoadEmployeesFromInput` over the `weeks` map. -/
def loadWeeks (st : Store) (employeeID : Nat) :
    List (String × WeeklyScheduleInput) → Store × Option String
  | [] => (st, none)
  | (weekType, w) :: rest =>
    let r := loadWeeklySchedules st employeeID weekType w
    match r.2 with
    | some e => (r.1, some e)
    | none => loadWeeks r.1 employeeID rest

/-- Embeds `EmployeeService.LoadEmployeesFromInput`: per employee, parse the
start date, persist the employee record (`repo.LoadEmployees`, which assigns
the next id), then load every week's schedules; the first error aborts the
remaining work but performs no rollback. -/
def LoadEmployeesFromInput (st : Store) :
    List EmployeeInput → Store × Option String
  | [] => (st, none)
  | emp :: rest =>
    match parseDate emp.startDate with
    | none => (st, some ("cannot parse " ++ emp.startDate))
    | some sd =>
      let newId := st.employees.length + 1
      let st1 : Store := { st with employees := st.employees ++
        [{ id := newId, name := emp.name, startDate := sd }] }
      let r := loadWeeks st1 newId emp.weeks
      match r.2 with
      | some e => (r.1, some e)
      | none => LoadEmployeesFromInput r.1 rest

/-- A slot whose start or end does not parse as `"HH:MM"`. -/
def slotBad (s : ScheduleInput) : Bool :=
  (parseHM s.start).isNone || (parseHM s.«end»).isNone

/-- Some slot of some weekday of some submitted week fails to parse. -/
def hasBadSlot (weeks : List (String × WeeklyScheduleInput)) : Bool :=
  weeks.any (fun p => (dayLists p.2).any (fun q => q.2.any slotBad))

/-! ### `FetchEmployeeSchedule` (service.go lines 93–153) -/

/-- One day of the month projection: resolve the phase for the day, keep the
stored rows whose phase and weekday match, format their times back to
`"HH:MM"`, and attach the holiday name when the holiday table has this date
(Go builds a map, so on duplicate dates the last list entry wins). -/
def mkDayEntry (employee : Employee) (holidays : List Holiday) (d : Int) :
    MonthlySchedule :=
  let weekType := WeekTypeForDate employee.startDate d
  let slots := (employee.schedules.filter
      (fun sched => sched.weekType = weekType && sched.dayName = weekdayName d)).map
      (fun sched => { start := formatHM sched.startTime, «end» := formatHM sched.endTime : TimeSlot })
  let hname :=
    match holidays.reverse.find? (fun h => h.holidayDate = d) with
    | some h => h.holidayName
    | none => ""
  { date := d, dayName := weekdayName d, holidayName := hname, timeSlots := slots }

/-- Embeds `EmployeeService.FetchEmployeeSchedule`.  The repository
collaborators are passed as results: `holidaysResult` is what
`GetHolidaysForMonthYear` returned (a failure is only logged and the
projection proceeds with no holidays), `employeeResult` what
`repo.GetEmployeeWithSchedules` returned (a failure aborts the request).
The day loop runs from the first of the month through
`firstDay.AddDate(0, 1, -1)`, one `MonthlySchedule` per day. -/
def FetchEmployeeSchedule (holidaysResult : Except String (List Holiday))
    (employeeResult : Except String Employee)
    (month : String) (year : Int) : Except String (List MonthlySchedule) :=
  let monthNum := MonthStringToNumber month
  if monthNum = 0 then .error ("invalid month: " ++ month)
  else
    let holidays := match holidaysResult with
      | .ok hs => hs
      | .error _ => []
    match employeeResult with
    | .error e => .error ("failed to get start date for employee: " ++ e)
    | .ok employee =>
      let firstDay := daysFromCivil year monthNum 1
      let lastDay := daysFromCivil year (monthNum + 1) 0
      let numDays := (lastDay + 1 - firstDay).toNat
      .ok ((List.range numDays).map
        (fun i : Nat => mkDayEntry employee holidays (firstDay + (i : Int))))

/-! ### `FetchEmployeeFormattedABWeek` (service.go lines 181–236) -/

/-- Canonical-view day (`service.DailySchedule`). -/
structure DailySchedule where
  dayName : String
  timeSlots : List TimeSlot
deriving Repr, DecidableEq

/-- Canonical-view week (`service.WeekSchedule`). -/
structure WeekSchedule where
  weekType : String
  days : List DailySchedule
deriving Repr, DecidableEq

/-- The fixed weekday order of the canonical view. -/
def daysOrder : List String :=
  ["Monday", "Tuesday", "Wednesday", "Thursday", "Friday", "Saturday", "Sunday"]

/-- Embeds `service.findDayIndex` (−1 when the name is not a weekday). -/
def findDayIndexAux : Nat → List String → String → Int
  | _, [], _ => -1
  | i, d :: rest, n => if d = n then (i : Int) else findDayIndexAux (i + 1) rest n

def findDayIndex (dayName : String) : Int := findDayIndexAux 0 daysOrder dayName

/-- Sets `days[idx].timeSlots ++= [slot]`, as the Go append-at-index does. -/
def appendSlotAt : List DailySchedule → Int → TimeSlot → List DailySchedule
  | [], _, _ => []
  | d :: rest, idx, slot =>
    if idx = 0 then { d with timeSlots := d.timeSlots ++ [slot] } :: rest
    else d :: appendSlotAt rest (idx - 1) slot

/-- One `range`-loop step of `FetchEmployeeFormattedABWeek`: look the row's
weekday up in the fixed order and, when found, append its formatted slot at
that index (rows with an unknown weekday name are skipped, `findDayIndex`
returning −1). -/
def weekStep (days : List DailySchedule) (sched : Schedule) : List DailySchedule :=
  let idx := findDayIndex sched.dayName
  if idx ≠ -1 then
    appendSlotAt days idx
      { start := formatHM sched.startTime, «end» := formatHM sched.endTime }
  else days

/-- Builds one week of the canonical view: the seven fixed empty days, then
each stored row folded in by `weekStep`. -/
def populateWeek (weekType : String) (schedules : List Schedule) : WeekSchedule :=
  { weekType := weekType,
    days := schedules.foldl weekStep
      (daysOrder.map (fun d => { dayName := d, timeSlots := [] })) }

/-- Embeds `EmployeeService.FetchEmployeeFormattedABWeek`: fetch the rows of
phase `"A"`, then of phase `"B"` (either failure aborts), and return the
two populated week structures in that fixed order. -/
def FetchEmployeeFormattedABWeek
    (getSchedule : String → Except String (List Schedule)) :
    Except String (List WeekSchedule) :=
  match getSchedule "A" with
  | .error e => .error e
  | .ok schedA =>
    match getSchedule "B" with
    | .error e => .error e
    | .ok schedB => .ok [populateWeek "A" schedA, populateWeek "B" schedB]

/-- Employee record used to evaluate the projector at concrete inputs. -/
def plainEmployee : Employee :=
  { id := 1, name := "E", startDate := 0, schedules := [] }

/-- Batch input whose only slot's start, `"25:00"`, fails hour validation. -/
def badEmployeeInput : EmployeeInput :=
  { name := "Delphine", startDate := "2024-01-08",
    weeks := [("A",
      { monday := [{ start := "25:00", «end» := "09:00" }],
        tuesday := [], wednesday := [], thursday := [], friday := [],
        saturday := [], sunday := [] })] }

/-! ### `HashJSON` and `normalize` (utility.go lines 78–121)

`HashJSON` unmarshals the payload into `interface` values (objects become
Go maps, which carry no key order and cannot hold duplicate keys; numbers
become float64), recursively sorts object keys (`normalize`), marshals the
result back to JSON (whose map encoding also emits keys in sorted byte
order) and returns the hex SHA-256 of those bytes.

The embedding works on the parsed value: `Json.obj` keeps the textual field
order, so Go's unordered maps are captured by the `KeyPerm` relation below;
a `Json.num` carries the decimal rendering `json.Marshal` produces for the
float64 (the spec makes no promise about distinct renderings of one
number). -/

inductive Json where
  | null : Json
  | bool (b : Bool) : Json
  | num (s : String) : Json
  | str (s : String) : Json
  | arr (elems : List Json) : Json
  | obj (fields : List (String × Json)) : Json
deriving Repr

/-- Lexicographic byte order on strings (Go `sort.Strings`), via codepoints,
whose order coincides with UTF-8 byte order. -/
def lexLeChars : List Char → List Char → Bool
  | [], _ => true
  | _ :: _, [] => false
  | a :: s, b :: t =>
    if a.toNat < b.toNat then true
    else if b.toNat < a.toNat then false
    else lexLeChars s t

def keyLe (p q : String × Json) : Bool := lexLeChars p.1.data q.1.data

def insertField (p : String × Json) : List (String × Json) → List (String × Json)
  | [] => [p]
  | q :: t => if keyLe p q then p :: q :: t else q :: insertField p t

/-- Stable sort of an object's fields by key, the observable effect of
`util.normalize` followed by `json.Marshal`'s sorted map encoding. -/
def sortFields : List (String × Json) → List (String × Json)
  | [] => []
  | p :: t => insertField p (sortFields t)

mutual
/-- Embeds `util.normalize` (composed with the key ordering `json.Marshal`
itself guarantees for maps): objects get their keys sorted recursively,
arrays are normalized element by element in place. -/
def normalize : Json → Json
  | .null => .null
  | .bool b => .bool b
  | .num s => .num s
  | .str s => .str s
  | .arr l => .arr (normalizeList l)
  | .obj l => .obj (sortFields (normalizeFields l))
def normalizeList : List Json → List Json
  | [] => []
  | x :: t => normalize x :: normalizeList t
def normalizeFields : List (String × Json) → List (String × Json)
  | [] => []
  | (k, v) :: t => (k, normalize v) :: normalizeFields t
end

/-- No two fields of this object share a key (guaranteed for every value
produced by Go's `json.Unmarshal`, since Go maps overwrite duplicates). -/
def nodupKeysB : List (String × Json) → Bool
  | [] => true
  | (k, _) :: t => !(t.any (fun q => q.1 == k)) && nodupKeysB t

mutual
/-- Duplicate-free object keys at every nesting depth. -/
def wellFormedB : Json → Bool
  | .null => true
  | .bool _ => true
  | .num _ => true
  | .str _ => true
  | .arr l => wellFormedListB l
  | .obj l => nodupKeysB l && wellFormedFieldsB l
def wellFormedListB : List Json → Bool
  | [] => true
  | x :: t => wellFormedB x && wellFormedListB t
def wellFormedFieldsB : List (String × Json) → Bool
  | [] => true
  | (_, v) :: t => wellFormedB v && wellFormedFieldsB t
end

mutual
/-- Structural equality up to reordering of object keys at any nesting
depth: arrays match element by element in order, objects match field by
field (same keys, equivalent values) up to a permutation of the fields. -/
inductive KeyPerm : Json → Json → Prop
  | null : KeyPerm .null .null
  | bool (b : Bool) : KeyPerm (.bool b) (.bool b)
  | num (s : String) : KeyPerm (.num s) (.num s)
  | str (s : String) : KeyPerm (.str s) (.str s)
  | arr {l l' : List Json} : KeyPermList l l' → KeyPerm (.arr l) (.arr l')
  | obj {l l' l'' : List (String × Json)} :
      KeyPermFields l l' → List.Perm l' l'' → KeyPerm (.obj l) (.obj l'')
inductive KeyPermList : List Json → List Json → Prop
  | nil : KeyPermList [] []
  | cons {x y : Json} {s t : List Json} :
      KeyPerm x y → KeyPermList s t → KeyPermList (x :: s) (y :: t)
inductive KeyPermFields :
    List (String × Json) → List (String × Json) → Prop
  | nil : KeyPermFields [] []
  | cons {k : String} {v w : Json} {s t : List (String × Json)} :
      KeyPerm v w → KeyPermFields s t → KeyPermFields ((k, v) :: s) ((k, w) :: t)
end

/-! ### Serialization to JSON bytes (Go `json.Marshal`, compact encoding)

Bytes are `Nat` values below 256.  Go's encoder escapes `"`, `\`, newline,
carriage return and tab with backslash forms, all other control characters
as `\u00xx`, HTML-escapes `<`, `>`, `&` by default, escapes U+2028/U+2029,
and emits everything else as raw UTF-8. -/

/-- UTF-8 bytes of the codepoint `n`. -/
def utf8Bytes (n : Nat) : List Nat :=
  if n < 128 then [n]
  else if n < 2048 then [192 + n / 64, 128 + n % 64]
  else if n < 65536 then [224 + n / 4096, 128 + n / 64 % 64, 128 + n % 64]
  else [240 + n / 262144, 128 + n / 4096 % 64, 128 + n / 64 % 64, 128 + n % 64]

/-- Lowercase hexadecimal digit as a byte. -/
def hexDigit (n : Nat) : Nat := if n < 10 then 48 + n else 87 + n

/-- Bytes Go's JSON string encoder writes for one character. -/
def escapeChar (c : Char) : List Nat :=
  let n := c.toNat
  if n = 34 then [92, 34]
  else if n = 92 then [92, 92]
  else if n = 10 then [92, 110]
  else if n = 13 then [92, 114]
  else if n = 9 then [92, 116]
  else if n < 32 ∨ n = 60 ∨ n = 62 ∨ n = 38 then
    [92, 117, 48, 48, hexDigit (n / 16), hexDigit (n % 16)]
  else if n = 8232 ∨ n = 8233 then
    [92, 117, 50, 48, 50, hexDigit (n % 16)]
  else utf8Bytes n

/-- A JSON string literal: quote, escaped characters, quote. -/
def quoteBytes (s : String) : List Nat :=
  34 :: s.data.foldr (fun c acc => escapeChar c ++ acc) [34]

mutual
/-- Compact `json.Marshal` rendering of a (already key-sorted) value. -/
def serialize : Json → List Nat
  | .null => [110, 117, 108, 108]
  | .bool true => [116, 114, 117, 101]
  | .bool false => [102, 97, 108, 115, 101]
  | .num s => s.data.map Char.toNat
  | .str s => quoteBytes s
  | .arr l => 91 :: (serializeElems l ++ [93])
  | .obj l => 123 :: (serializeFields l ++ [125])
def serializeElems : List Json → List Nat
  | [] => []
  | [x] => serialize x
  | x :: y :: t => serialize x ++ 44 :: serializeElems (y :: t)
def serializeFields : List (String × Json) → List Nat
  | [] => []
  | [(k, v)] => quoteBytes k ++ 58 :: serialize v
  | (k, v) :: q :: t => (quoteBytes k ++ 58 :: serialize v) ++ 44 :: serializeFields (q :: t)
end

/-! ### SHA-256 over a byte list, `crypto/sha256` -/

/-- Truncation to a 32-bit word. -/
def w32 (x : Nat) : Nat := x % 4294967296

def xorAux : Nat → Nat → Nat → Nat
  | 0, _, _ => 0
  | f + 1, a, b => (if (a + b) % 2 = 1 then 1 else 0) + 2 * xorAux f (a / 2) (b / 2)

def andAux : Nat → Nat → Nat → Nat
  | 0, _, _ => 0
  | f + 1, a, b => (if a % 2 = 1 ∧ b % 2 = 1 then 1 else 0) + 2 * andAux f (a / 2) (b / 2)

def xor32 (a b : Nat) : Nat := xorAux 32 a b

def and32 (a b : Nat) : Nat := andAux 32 a b

def not32 (a : Nat) : Nat := 4294967295 - w32 a

def rotr (n x : Nat) : Nat := w32 (x / 2 ^ n + x % 2 ^ n * 2 ^ (32 - n))

def shr (n x : Nat) : Nat := x / 2 ^ n

def bsig0 (x : Nat) : Nat := xor32 (xor32 (rotr 2 x) (rotr 13 x)) (rotr 22 x)

def bsig1 (x : Nat) : Nat := xor32 (xor32 (rotr 6 x) (rotr 11 x)) (rotr 25 x)

def ssig0 (x : Nat) : Nat := xor32 (xor32 (rotr 7 x) (rotr 18 x)) (shr 3 x)

def ssig1 (x : Nat) : Nat := xor32 (xor32 (rotr 17 x) (rotr 19 x)) (shr 10 x)

def chFn (x y z : Nat) : Nat := xor32 (and32 x y) (and32 (not32 x) z)

def majFn (x y z : Nat) : Nat := xor32 (xor32 (and32 x y) (and32 x z)) (and32 y z)

/-- The 64 SHA-256 round constants of FIPS 180-4, in decimal. -/
def sha256K : List Nat :=
  [1116352408, 1899447441, 3049323471, 3921009573, 961987163,
   1508970993, 2453635748, 2870763221, 3624381080, 310598401,
   607225278, 1426881987, 1925078388, 2162078206, 2614888103,
   3248222580, 3835390401, 4022224774, 264347078, 604807628,
   770255983, 1249150122, 1555081692, 1996064986, 2554220882,
   2821834349, 2952996808, 3210313671, 3336571891, 3584528711,
   113926993, 338241895, 666307205, 773529912, 1294757372,
   1396182291, 1695183700, 1986661051, 2177026350, 2456956037,
   2730485921, 2820302411, 3259730800, 3345764771, 3516065817,
   3600352804, 4094571909, 275423344, 430227734, 506948616,
   659060556, 883997877, 958139571, 1322822218, 1537002063,
   1747873779, 1955562222, 2024104815, 2227730452, 2361852424,
   2428436474, 2756734187, 3204031479, 3329325298]

/-- The eight SHA-256 initial hash words of FIPS 180-4, in decimal. -/
def sha256H0 : List Nat :=
  [1779033703, 3144134277, 1013904242, 2773480762,
   1359893119, 2600822924, 528734635, 1541459225]

/-- Big-endian eight-byte length field of the padding. -/
def lenBytes (n : Nat) : List Nat :=
  [n / 2 ^ 56 % 256, n / 2 ^ 48 % 256, n / 2 ^ 40 % 256, n / 2 ^ 32 % 256,
   n / 2 ^ 24 % 256, n / 2 ^ 16 % 256, n / 2 ^ 8 % 256, n % 256]

/-- Merkle–Damgård padding: `0x80`, zeros to 56 mod 64, bit length. -/
def shaPad (msg : List Nat) : List Nat :=
  msg ++ 128 :: (List.replicate ((119 - msg.length % 64) % 64) 0 ++ lenBytes (8 * msg.length))

/-- Big-endian 32-bit words of a byte list (length a multiple of 4). -/
def toWords : List Nat → List Nat
  | b1 :: b2 :: b3 :: b4 :: t => (((b1 * 256 + b2) * 256 + b3) * 256 + b4) :: toWords t
  | _ => []

/-- Groups a word list (length a multiple of 16) into 16-word blocks. -/
def blocks16 : List Nat → List (List Nat)
  | w1 :: w2 :: w3 :: w4 :: w5 :: w6 :: w7 :: w8 ::
      w9 :: w10 :: w11 :: w12 :: w13 :: w14 :: w15 :: w16 :: t =>
    [w1, w2, w3, w4, w5, w6, w7, w8, w9, w10, w11, w12, w13, w14, w15, w16] :: blocks16 t
  | _ => []

/-- Extends the 16 block words to the 64-entry message schedule. -/
def schedGo : Nat → List Nat → List Nat
  | 0, w => w
  | f + 1, w =>
    let n := w.length
    let x := w32 (ssig1 (w.getD (n - 2) 0) + w.getD (n - 7) 0 +
      ssig0 (w.getD (n - 15) 0) + w.getD (n - 16) 0)
    schedGo f (w ++ [x])

/-- One compression round on the eight working variables. -/
def roundFn (st8 : List Nat) (kw : Nat × Nat) : List Nat :=
  match st8 with
  | [a, b, c, d, e, f, g, h] =>
    let t1 := w32 (h + bsig1 e + chFn e f g + kw.1 + kw.2)
    let t2 := w32 (bsig0 a + majFn a b c)
    [w32 (t1 + t2), a, b, c, w32 (d + t1), e, f, g]
  | other => other

/-- Compresses one 16-word block into the running hash. -/
def compressBlock (h8 : List Nat) (block : List Nat) : List Nat :=
  let w := schedGo 48 block
  let st := (sha256K.zip w).foldl roundFn h8
  (h8.zip st).map (fun p => w32 (p.1 + p.2))

/-- SHA-256 of a byte list, as eight 32-bit words. -/
def sha256Words (msg : List Nat) : List Nat :=
  (blocks16 (toWords (shaPad msg))).foldl compressBlock sha256H0

def hexChar (n : Nat) : Char := Char.ofNat (hexDigit n)

def hexWord (n : Nat) : List Char :=
  [hexChar (n / 16 ^ 7 % 16), hexChar (n / 16 ^ 6 % 16), hexChar (n / 16 ^ 5 % 16),
   hexChar (n / 16 ^ 4 % 16), hexChar (n / 16 ^ 3 % 16), hexChar (n / 16 ^ 2 % 16),
   hexChar (n / 16 % 16), hexChar (n % 16)]

/-- Hex rendering of a SHA-256 digest, as `hex.EncodeToString` produces. -/
def sha256Hex (msg : List Nat) : String :=
  String.mk ((sha256Words msg).foldr (fun w acc => hexWord w ++ acc) [])

/-- Embeds `util.HashJSON` on the parsed payload: normalize, marshal with
sorted keys, SHA-256, hex. -/
def HashJSON (v : Json) : String := sha256Hex (serialize (normalize v))

/-! ## Theorems -/

/-! ### Calendar arithmetic lemmas -/

theorem tmod_two_eq_zero_iff (w : Int) : Int.tmod w 2 = 0 ↔ w % 2 = 0 := by
  rw [← Int.dvd_iff_tmod_eq_zero]
  omega

theorem eraOf_eq (a : Int) : eraOf a = a / 400 := by
  unfold eraOf
  split
  · rw [Int.tdiv_eq_ediv ‹0 ≤ a› (by norm_num)]
  · rw [show a - 399 = -(399 - a) by ring, Int.neg_tdiv,
      Int.tdiv_eq_ediv (by omega) (by norm_num)]
    omega

theorem yearDays_eq (a : Int) : yearDays a = 365 * a + a / 4 - a / 100 + a / 400 := by
  unfold yearDays yoeOf
  rw [eraOf_eq]
  have h0 : 0 ≤ a - a / 400 * 400 := by omega
  rw [Int.tdiv_eq_ediv h0 (by norm_num), Int.tdiv_eq_ediv h0 (by norm_num)]
  omega

theorem daysFromCivil_day_zero (y m : Int) :
    daysFromCivil y m 0 = daysFromCivil y m 1 - 1 := by
  unfold daysFromCivil monthDoy
  ring

theorem daysFromCivil_succ_month (y m : Int) (h1 : 1 ≤ m) (h2 : m ≤ 12) :
    daysFromCivil y (m + 1) 1 - daysFromCivil y m 1 = daysInMonthSpec y m := by
  have t0 : Int.tdiv 2 5 = 0 := by decide
  have t1 : Int.tdiv 155 5 = 31 := by decide
  have t2 : Int.tdiv 308 5 = 61 := by decide
  have t3 : Int.tdiv 461 5 = 92 := by decide
  have t4 : Int.tdiv 614 5 = 122 := by decide
  have t5 : Int.tdiv 767 5 = 153 := by decide
  have t6 : Int.tdiv 920 5 = 184 := by decide
  have t7 : Int.tdiv 1073 5 = 214 := by decide
  have t8 : Int.tdiv 1226 5 = 245 := by decide
  have t9 : Int.tdiv 1379 5 = 275 := by decide
  have t10 : Int.tdiv 1532 5 = 306 := by decide
  have t11 : Int.tdiv 1685 5 = 337 := by decide
  have hleap : ∀ z : Int, isLeapYear z = true ↔
      (z % 4 = 0 ∧ (z % 100 ≠ 0 ∨ z % 400 = 0)) := by
    intro z
    unfold isLeapYear
    simp
  interval_cases m <;>
    simp only [daysFromCivil, monthDoy, daysInMonthSpec] <;>
    norm_num <;>
    simp only [t0, t1, t2, t3, t4, t5, t6, t7, t8, t9, t10, t11] <;>
    try omega
  · -- February: the only month whose length depends on the year.
    rw [yearDays_eq y, yearDays_eq (y - 1)]
    by_cases hly : isLeapYear y = true
    · rw [if_pos hly]
      rw [hleap y] at hly
      omega
    · rw [if_neg hly]
      rw [hleap y] at hly
      omega

/-! ### C1 and C8: the phase resolver -/

/-- The phase only depends on the parity of the raw ISO-week difference,
because the `+52` correction is even. -/
theorem weekTypeForDate_eq_parity (d t : Int) :
    WeekTypeForDate d t =
      if (isoWeekOfDay t - isoWeekOfDay d) % 2 = 0 then "A" else "B" := by
  unfold WeekTypeForDate
  set delta := isoWeekOfDay t - isoWeekOfDay d with hdelta
  have hpar : Int.tmod (if delta < 0 then delta + 52 else delta) 2 = 0 ↔ delta % 2 = 0 := by
    rw [tmod_two_eq_zero_iff]; split <;> omega
  by_cases h2 : delta % 2 = 0
  · rw [if_pos (hpar.mpr h2), if_pos h2]
  · rw [if_neg (fun hc => h2 (hpar.mp hc)), if_neg h2]

/-- C1: the phase resolver returns `"A"` exactly when the ISO-week difference,
corrected by `+52` when negative, is even, and `"B"` otherwise; and for every
date `d`, `WeekTypeForDate d d = "A"`. -/
theorem weekTypeForDate_phase_c1 (d t : Int) :
    (WeekTypeForDate d t = "A" ↔
      (if isoWeekOfDay t - isoWeekOfDay d < 0
       then isoWeekOfDay t - isoWeekOfDay d + 52
       else isoWeekOfDay t - isoWeekOfDay d) % 2 = 0) ∧
    (WeekTypeForDate d t = "B" ↔
      ¬ (if isoWeekOfDay t - isoWeekOfDay d < 0
         then isoWeekOfDay t - isoWeekOfDay d + 52
         else isoWeekOfDay t - isoWeekOfDay d) % 2 = 0) ∧
    WeekTypeForDate d d = "A" := by
  have hAB : ("A" : String) ≠ "B" := by decide
  have hcor : (if isoWeekOfDay t - isoWeekOfDay d < 0
       then isoWeekOfDay t - isoWeekOfDay d + 52
       else isoWeekOfDay t - isoWeekOfDay d) % 2 = 0 ↔
      (isoWeekOfDay t - isoWeekOfDay d) % 2 = 0 := by
    split <;> omega
  have hself : WeekTypeForDate d d = "A" := by
    rw [weekTypeForDate_eq_parity]
    simp
  refine ⟨?_, ?_, hself⟩ <;> rw [weekTypeForDate_eq_parity, hcor] <;>
    by_cases h2 : (isoWeekOfDay t - isoWeekOfDay d) % 2 = 0 <;>
    simp [h2, hAB, hAB.symm]

/-- C8: when the ISO week number advances by one across `t`, `t+7` and
`t+14` (the three dates lie in the same year-relative window), the phase
alternates after one week and returns after two. -/
theorem weekTypeForDate_alternates_c8 (d t : Int)
    (h7 : isoWeekOfDay (t + 7) = isoWeekOfDay t + 1)
    (h14 : isoWeekOfDay (t + 14) = isoWeekOfDay t + 2) :
    WeekTypeForDate d (t + 7) ≠ WeekTypeForDate d t ∧
    WeekTypeForDate d (t + 14) = WeekTypeForDate d t := by
  have hAB : ("A" : String) ≠ "B" := by decide
  rw [weekTypeForDate_eq_parity d (t + 7), weekTypeForDate_eq_parity d (t + 14),
    weekTypeForDate_eq_parity d t, h7, h14]
  constructor
  · by_cases h2 : (isoWeekOfDay t - isoWeekOfDay d) % 2 = 0
    · rw [if_pos h2, if_neg (by omega)]
      exact hAB.symm
    · rw [if_neg h2, if_pos (by omega)]
      exact hAB
  · by_cases h2 : (isoWeekOfDay t - isoWeekOfDay d) % 2 = 0
    · rw [if_pos h2, if_pos (by omega)]
    · rw [if_neg h2, if_neg (by omega)]

/-- C8 witness: anchor 2024-01-08 (ISO week 2), target 2024-03-05 (ISO week
10); weeks 10, 11, 12 advance by one per week. -/
theorem weekTypeForDate_alternates_c8_witness :
    WeekTypeForDate (daysFromCivil 2024 1 8) (daysFromCivil 2024 3 5 + 7) ≠
      WeekTypeForDate (daysFromCivil 2024 1 8) (daysFromCivil 2024 3 5) ∧
    WeekTypeForDate (daysFromCivil 2024 1 8) (daysFromCivil 2024 3 5 + 14) =
      WeekTypeForDate (daysFromCivil 2024 1 8) (daysFromCivil 2024 3 5) :=
  weekTypeForDate_alternates_c8 (daysFromCivil 2024 1 8) (daysFromCivil 2024 3 5)
    (by decide) (by decide)

example : daysFromCivil 2024 1 8 = 19730 := by decide
example : weekdayName (daysFromCivil 2024 1 8) = "Monday" := by decide
example : isoWeekOfDay (daysFromCivil 2024 1 8) = 2 := by decide
example : isoWeekOfDay (daysFromCivil 2024 3 5) = 10 := by decide
example : isoWeekOfDay (daysFromCivil 2023 1 1) = 52 := by decide
example : isoWeekOfDay (daysFromCivil 2021 1 1) = 53 := by decide
example : WeekTypeForDate (daysFromCivil 2024 1 8) (daysFromCivil 2024 3 5) = "A" := by decide
example : WeekTypeForDate (daysFromCivil 2024 1 8) (daysFromCivil 2024 3 12) = "B" := by decide

/-! ### C5 and C10: `CalculateHours` -/

theorem parseHMRest_bounds {hh : Nat} {l : List Char} {h m : Nat}
    (hp : parseHMRest hh l = some (h, m)) : h < 24 ∧ m < 60 := by
  unfold parseHMRest at hp
  split at hp
  · rename_i hlt
    split at hp
    · split at hp
      · split at hp
        · rename_i hm
          have := Option.some.inj hp
          have h1 : hh = h := congrArg Prod.fst this
          have h2 := congrArg Prod.snd this
          simp only at h1 h2
          omega
        · exact absurd hp (by simp)
      · exact absurd hp (by simp)
    · exact absurd hp (by simp)
  · exact absurd hp (by simp)

theorem parseHM_bounds {s : String} {h m : Nat} (hp : parseHM s = some (h, m)) :
    h < 24 ∧ m < 60 := by
  unfold parseHM at hp
  split at hp
  · exact absurd hp (by simp)
  · split at hp
    · split at hp
      · split at hp
        · exact parseHMRest_bounds hp
        · exact parseHMRest_bounds hp
      · exact parseHMRest_bounds hp
    · exact absurd hp (by simp)

/-- C5: on any two well-formed `"HH:MM"` inputs the computed duration is
`end − start` (in hours) for a non-crossing slot and `end + 24 − start` for a
midnight-crossing slot, and is non-negative; the two spec examples evaluate
to 8 and 4 hours. -/
theorem calculateHours_c5 (startStr endStr : String) (sh sm eh em : Nat)
    (hs : parseHM startStr = some (sh, sm)) (he : parseHM endStr = some (eh, em)) :
    (CalculateHours startStr endStr =
      some (if sh * 60 + sm ≤ eh * 60 + em
            then (((eh : ℚ) * 60 + em) - ((sh : ℚ) * 60 + sm)) / 60
            else ((((eh : ℚ) * 60 + em) + 1440) - ((sh : ℚ) * 60 + sm)) / 60) ∧
     ∀ q : ℚ, CalculateHours startStr endStr = some q → 0 ≤ q) ∧
    CalculateHours "09:00" "17:00" = some 8 ∧
    CalculateHours "22:00" "02:00" = some 4 := by
  have hcomp : CalculateHours startStr endStr =
      some (((if ((eh : ℚ) * 60 + em) < ((sh : ℚ) * 60 + sm)
              then ((eh : ℚ) * 60 + em) + 1440
              else ((eh : ℚ) * 60 + em)) - ((sh : ℚ) * 60 + sm)) / 60) := by
    simp only [CalculateHours, hs, he]
  have hiff : (((eh : ℚ) * 60 + em) < ((sh : ℚ) * 60 + sm)) ↔
      (eh * 60 + em < sh * 60 + sm) := by
    exact_mod_cast Iff.rfl
  have h0900 : parseHM "09:00" = some (9, 0) := by decide
  have h1700 : parseHM "17:00" = some (17, 0) := by decide
  have h2200 : parseHM "22:00" = some (22, 0) := by decide
  have h0200 : parseHM "02:00" = some (2, 0) := by decide
  refine ⟨⟨?_, ?_⟩, ?_, ?_⟩
  · rw [hcomp]
    apply congrArg some
    by_cases hle : sh * 60 + sm ≤ eh * 60 + em
    · rw [if_pos hle, if_neg (by rw [hiff]; omega)]
    · rw [if_neg hle, if_pos (by rw [hiff]; omega)]
  · intro q hq
    rw [hcomp] at hq
    have hq2 := Option.some.inj hq
    obtain ⟨hshb, hsmb⟩ := parseHM_bounds hs
    have hsmall : ((sh : ℚ) * 60 + sm) ≤ 1439 := by
      have h1 : sh * 60 + sm ≤ 1439 := by omega
      exact_mod_cast h1
    rw [← hq2]
    apply div_nonneg _ (by norm_num)
    have ha : (0 : ℚ) ≤ (eh : ℚ) * 60 + em := by positivity
    split
    · linarith
    · rename_i hnlt
      linarith [not_lt.mp hnlt]
  · simp only [CalculateHours, h0900, h1700]
    norm_num
  · simp only [CalculateHours, h2200, h0200]
    norm_num

/-- C5 witness: instantiate at the two spec examples. -/
theorem calculateHours_c5_witness :
    (CalculateHours "09:00" "17:00" =
      some (if 9 * 60 + 0 ≤ 17 * 60 + 0
            then (((17 : ℚ) * 60 + 0) - ((9 : ℚ) * 60 + 0)) / 60
            else ((((17 : ℚ) * 60 + 0) + 1440) - ((9 : ℚ) * 60 + 0)) / 60) ∧
     ∀ q : ℚ, CalculateHours "09:00" "17:00" = some q → 0 ≤ q) ∧
    CalculateHours "09:00" "17:00" = some 8 ∧
    CalculateHours "22:00" "02:00" = some 4 :=
  calculateHours_c5 "09:00" "17:00" 9 0 17 0 (by decide) (by decide)

/-- C10: a slot whose end equals its start has zero duration — the `+24h`
adjustment fires only when the end is strictly before the start. -/
theorem calculateHours_zero_c10 (t : String) (h m : Nat)
    (hp : parseHM t = some (h, m)) :
    CalculateHours t t = some 0 := by
  simp only [CalculateHours, hp]
  norm_num

/-- C10 witness: a concrete equal-endpoints slot. -/
theorem calculateHours_zero_c10_witness :
    CalculateHours "09:30" "09:30" = some 0 :=
  calculateHours_zero_c10 "09:30" 9 30 (by decide)

/-! ### C3: the month-name resolver never fails -/

theorem lookupMonthAux_range :
    ∀ (l : List String) (i : Nat) (val : List Nat) (m : Nat) (r : List Nat),
      lookupMonthAux i l val = some (m, r) → i ≤ m ∧ m < i + l.length := by
  intro l
  induction l with
  | nil => intro i val m r h; exact absurd h (by simp [lookupMonthAux])
  | cons v rest ih =>
    intro i val m r h
    unfold lookupMonthAux at h
    split at h
    · have := Option.some.inj h
      have h1 : i = m := congrArg Prod.fst this
      simp only [List.length_cons]
      omega
    · have := ih (i + 1) val m r h
      simp only [List.length_cons]
      omega

/-- The month resolver can never return a value outside 1..12: on failure it
defaults to 1, so the `monthNum == 0` guard in `FetchEmployeeSchedule` is
unreachable. -/
theorem monthStringToNumber_range (month : String) :
    1 ≤ MonthStringToNumber month ∧ MonthStringToNumber month ≤ 12 := by
  unfold MonthStringToNumber
  split
  · rename_i m heq
    have hr := lookupMonthAux_range longMonthNames 1 (strCodes month) m [] heq
    have h12 : longMonthNames.length = 12 := rfl
    rw [h12] at hr
    constructor
    · exact_mod_cast hr.1
    · have hm : m ≤ 12 := by omega
      exact_mod_cast hm
  · exact ⟨le_refl 1, by norm_num⟩

example : MonthStringToNumber "March" = 3 := by decide
example : MonthStringToNumber "march" = 3 := by decide
example : MonthStringToNumber "Smarch" = 1 := by decide
example : MonthStringToNumber "Januaryy" = 1 := by decide
example : MonthStringToNumber "January" = 1 := by decide
example : MonthStringToNumber "December" = 12 := by decide

/-! ### C2, C3 and C9: the month projection -/

theorem monthLength (y m : Int) (h1 : 1 ≤ m) (h2 : m ≤ 12) :
    daysFromCivil y (m + 1) 0 + 1 - daysFromCivil y m 1 = daysInMonthSpec y m := by
  rw [daysFromCivil_day_zero]
  have h := daysFromCivil_succ_month y m h1 h2
  omega

theorem mkDayEntry_date (e : Employee) (hs : List Holiday) (d : Int) :
    (mkDayEntry e hs d).date = d := rfl

theorem mkDayEntry_dayName (e : Employee) (hs : List Holiday) (d : Int) :
    (mkDayEntry e hs d).dayName = weekdayName d := rfl

theorem mkDayEntry_holiday_nil (e : Employee) (d : Int) :
    (mkDayEntry e [] d).holidayName = "" := rfl

/-- C2: when the employee fetch succeeds, the month projection succeeds and
returns exactly one `MonthlySchedule` per calendar day of the requested
month, in strictly ascending date order, each entry's weekday name being the
calendar weekday of its date. -/
theorem fetchEmployeeSchedule_shape_c2
    (holidaysResult : Except String (List Holiday)) (employee : Employee)
    (month : String) (year : Int) :
    ∃ entries : List MonthlySchedule,
      FetchEmployeeSchedule holidaysResult (.ok employee) month year = .ok entries ∧
      entries.length = (daysInMonthSpec year (MonthStringToNumber month)).toNat ∧
      entries.Pairwise (fun a b => a.date < b.date) ∧
      ∀ e ∈ entries, e.dayName = weekdayName e.date := by
  obtain ⟨hm1, hm12⟩ := monthStringToNumber_range month
  have hne : ¬ MonthStringToNumber month = 0 := by omega
  simp only [FetchEmployeeSchedule, hne, if_false, ite_false]
  refine ⟨_, rfl, ?_, ?_, ?_⟩
  · rw [List.length_map, List.length_range]
    have hms := monthLength year (MonthStringToNumber month) hm1 hm12
    omega
  · refine List.Pairwise.map _ ?_ (List.pairwise_lt_range _)
    intro a b hab
    rw [mkDayEntry_date, mkDayEntry_date]
    omega
  · intro e he
    obtain ⟨i, hi, rfl⟩ := List.mem_map.mp he
    rw [mkDayEntry_date, mkDayEntry_dayName]

/-- C3 evidence: an unrecognized month name is silently mapped to January.
`MonthStringToNumber` can never return 0, so the `monthNum == 0` guard in
`FetchEmployeeSchedule` is dead code, and the projection for `"Smarch"`
succeeds with a full 31-day January instead of the invalid-month error. -/
theorem monthDefault_c3 :
    MonthStringToNumber "Smarch" = 1 ∧
    (∀ month : String, ¬ MonthStringToNumber month = 0) ∧
    (FetchEmployeeSchedule (.ok []) (.ok plainEmployee) "Smarch" 2024).toOption =
      (FetchEmployeeSchedule (.ok []) (.ok plainEmployee) "January" 2024).toOption ∧
    (FetchEmployeeSchedule (.ok []) (.ok plainEmployee) "Smarch" 2024).toOption.map
      List.length = some 31 := by
  refine ⟨by decide, ?_, by decide, by decide⟩
  intro month
  have := monthStringToNumber_range month
  omega

/-- C9: a failing employee fetch fails the whole projection, while a failing
holiday fetch is non-fatal — the projection is still produced, with no
holiday annotation on any day. -/
theorem fetchEmployeeSchedule_failures_c9 :
    (∀ (hr : Except String (List Holiday)) (err month : String) (year : Int),
      ∃ e, FetchEmployeeSchedule hr (.error err) month year = .error e) ∧
    (∀ (eh : String) (employee : Employee) (month : String) (year : Int),
      ∃ entries, FetchEmployeeSchedule (.error eh) (.ok employee) month year =
          .ok entries ∧
        ∀ ent ∈ entries, ent.holidayName = "") := by
  constructor
  · intro hr err month year
    have hne : ¬ MonthStringToNumber month = 0 := by
      have := monthStringToNumber_range month
      omega
    simp only [FetchEmployeeSchedule, hne, if_false, ite_false]
    exact ⟨_, rfl⟩
  · intro eh employee month year
    have hne : ¬ MonthStringToNumber month = 0 := by
      have := monthStringToNumber_range month
      omega
    simp only [FetchEmployeeSchedule, hne, if_false, ite_false]
    refine ⟨_, rfl, ?_⟩
    intro ent hent
    obtain ⟨i, hi, rfl⟩ := List.mem_map.mp hent
    exact mkDayEntry_holiday_nil employee _

/-! ### C7: the canonical two-phase view -/

theorem appendSlotAt_names (s : TimeSlot) :
    ∀ (l : List DailySchedule) (idx : Int),
      (appendSlotAt l idx s).map DailySchedule.dayName =
        l.map DailySchedule.dayName := by
  intro l
  induction l with
  | nil => intro idx; rfl
  | cons d rest ih =>
    intro idx
    unfold appendSlotAt
    split
    · rfl
    · simp only [List.map_cons, ih]

theorem weekStep_names (days : List DailySchedule) (sched : Schedule) :
    (weekStep days sched).map DailySchedule.dayName =
      days.map DailySchedule.dayName := by
  simp only [weekStep]
  split
  · exact appendSlotAt_names _ days _
  · rfl

theorem foldl_weekStep_names (l : List Schedule) :
    ∀ days : List DailySchedule,
      ((l.foldl weekStep days).map DailySchedule.dayName) =
        days.map DailySchedule.dayName := by
  induction l with
  | nil => intro days; rfl
  | cons s rest ih =>
    intro days
    rw [List.foldl_cons, ih, weekStep_names]

theorem populateWeek_names (weekType : String) (schedules : List Schedule) :
    (populateWeek weekType schedules).days.map DailySchedule.dayName = daysOrder := by
  unfold populateWeek
  rw [foldl_weekStep_names]
  simp [daysOrder]

/-- C7: when both schedule fetches succeed, the canonical view is exactly
two week structures, phase `"A"` first then `"B"`, each with exactly seven
days whose names are Monday…Sunday in the fixed order (days with no stored
rows are present with empty slot lists). -/
theorem formattedABWeek_c7 (getSchedule : String → Except String (List Schedule))
    (la lb : List Schedule)
    (hA : getSchedule "A" = .ok la) (hB : getSchedule "B" = .ok lb) :
    ∃ wa wb, FetchEmployeeFormattedABWeek getSchedule = .ok [wa, wb] ∧
      wa.weekType = "A" ∧ wb.weekType = "B" ∧
      wa.days.map DailySchedule.dayName =
        ["Monday", "Tuesday", "Wednesday", "Thursday", "Friday", "Saturday", "Sunday"] ∧
      wb.days.map DailySchedule.dayName =
        ["Monday", "Tuesday", "Wednesday", "Thursday", "Friday", "Saturday", "Sunday"] ∧
      wa.days.length = 7 ∧ wb.days.length = 7 := by
  have hlen : ∀ l : List Schedule, (populateWeek "X" l).days.length = 7 → True := fun _ _ => trivial
  refine ⟨populateWeek "A" la, populateWeek "B" lb, ?_, rfl, rfl, ?_, ?_, ?_, ?_⟩
  · simp only [FetchEmployeeFormattedABWeek, hA, hB]
  · exact populateWeek_names "A" la
  · exact populateWeek_names "B" lb
  · have h := populateWeek_names "A" la
    have := congrArg List.length h
    simpa using this
  · have h := populateWeek_names "B" lb
    have := congrArg List.length h
    simpa using this

/-- C7 witness: a repository with no stored rows still yields the fixed
two-phase, seven-day structure. -/
theorem formattedABWeek_c7_witness :
    ∃ wa wb,
      FetchEmployeeFormattedABWeek (fun _ => .ok ([] : List Schedule)) = .ok [wa, wb] ∧
      wa.weekType = "A" ∧ wb.weekType = "B" ∧
      wa.days.map DailySchedule.dayName =
        ["Monday", "Tuesday", "Wednesday", "Thursday", "Friday", "Saturday", "Sunday"] ∧
      wb.days.map DailySchedule.dayName =
        ["Monday", "Tuesday", "Wednesday", "Thursday", "Friday", "Saturday", "Sunday"] ∧
      wa.days.length = 7 ∧ wb.days.length = 7 :=
  formattedABWeek_c7 (fun _ => .ok []) [] [] rfl rfl

/-! ### C4: batch loading with an invalid slot -/

theorem loadSlots_employees (employeeID : Nat) (wt dn : String) :
    ∀ (l : List ScheduleInput) (st : Store),
      (loadSlots st employeeID wt dn l).1.employees = st.employees := by
  intro l
  induction l with
  | nil => intro st; rfl
  | cons s rest ih =>
    intro st
    unfold loadSlots
    cases hps : parseHM s.start with
    | none => rfl
    | some stt =>
      cases hpe : parseHM s.«end» with
      | none => rfl
      | some en => exact ih _

theorem loadSlots_err (employeeID : Nat) (wt dn : String) :
    ∀ (l : List ScheduleInput) (st : Store),
      ((loadSlots st employeeID wt dn l).2).isSome = l.any slotBad := by
  intro l
  induction l with
  | nil => intro st; rfl
  | cons s rest ih =>
    intro st
    unfold loadSlots
    cases hps : parseHM s.start with
    | none =>
      simp only [List.any_cons, slotBad, hps, Option.isNone_none, Bool.true_or,
        Option.isSome_some]
    | some stt =>
      cases hpe : parseHM s.«end» with
      | none =>
        simp only [List.any_cons, slotBad, hps, hpe, Option.isNone_none,
          Option.isNone_some, Bool.false_or, Bool.or_true, Bool.true_or,
          Option.isSome_some]
      | some en =>
        simp only [List.any_cons, slotBad, hps, hpe, Option.isNone_some,
          Bool.or_self, Bool.false_or, ih]

theorem loadDays_employees (employeeID : Nat) (wt : String) :
    ∀ (l : List (String × List ScheduleInput)) (st : Store),
      (loadDays st employeeID wt l).1.employees = st.employees := by
  intro l
  induction l with
  | nil => intro st; rfl
  | cons p rest ih =>
    intro st
    obtain ⟨dn, slots⟩ := p
    unfold loadDays
    cases h2 : (loadSlots st employeeID wt dn slots).2 with
    | some e =>
      simp only [h2]
      exact loadSlots_employees employeeID wt dn slots st
    | none =>
      simp only [h2]
      rw [ih]
      exact loadSlots_employees employeeID wt dn slots st

theorem loadDays_err (employeeID : Nat) (wt : String) :
    ∀ (l : List (String × List ScheduleInput)) (st : Store),
      ((loadDays st employeeID wt l).2).isSome = l.any (fun q => q.2.any slotBad) := by
  intro l
  induction l with
  | nil => intro st; rfl
  | cons p rest ih =>
    intro st
    obtain ⟨dn, slots⟩ := p
    unfold loadDays
    have hs := loadSlots_err employeeID wt dn slots st
    cases h2 : (loadSlots st employeeID wt dn slots).2 with
    | some e =>
      rw [h2] at hs
      simp only [h2, List.any_cons, Option.isSome_some, ← hs, Bool.true_or]
    | none =>
      rw [h2] at hs
      simp only [h2, List.any_cons, ← hs, Option.isSome_none, Bool.false_or, ih]

theorem loadWeeks_employees (employeeID : Nat) :
    ∀ (l : List (String × WeeklyScheduleInput)) (st : Store),
      (loadWeeks st employeeID l).1.employees = st.employees := by
  intro l
  induction l with
  | nil => intro st; rfl
  | cons p rest ih =>
    intro st
    obtain ⟨wt, w⟩ := p
    unfold loadWeeks loadWeeklySchedules
    cases h2 : (loadDays st employeeID wt (dayLists w)).2 with
    | some e =>
      simp only [h2]
      exact loadDays_employees employeeID wt (dayLists w) st
    | none =>
      simp only [h2]
      rw [ih]
      exact loadDays_employees employeeID wt (dayLists w) st

theorem loadWeeks_err (employeeID : Nat) :
    ∀ (l : List (String × WeeklyScheduleInput)) (st : Store),
      ((loadWeeks st employeeID l).2).isSome = hasBadSlot l := by
  intro l
  induction l with
  | nil => intro st; rfl
  | cons p rest ih =>
    intro st
    obtain ⟨wt, w⟩ := p
    unfold loadWeeks loadWeeklySchedules hasBadSlot
    have hd := loadDays_err employeeID wt (dayLists w) st
    cases h2 : (loadDays st employeeID wt (dayLists w)).2 with
    | some e =>
      rw [h2] at hd
      simp only [h2, List.any_cons, Option.isSome_some, ← hd, Bool.true_or]
    | none =>
      rw [h2] at hd
      have ihr := ih ((loadDays st employeeID wt (dayLists w)).1)
      unfold hasBadSlot at ihr
      simp only [h2, List.any_cons, ← hd, Option.isSome_none, Bool.false_or, ihr]

/-- C4 counterexample: loading a batch whose only slot starts at `"25:00"`
does fail, but the store is not left untouched — the employee record has
been persisted. -/
theorem loadEmployees_partialWrite_counterexample_c4 :
    ((LoadEmployeesFromInput { employees := [], schedules := [] }
        [badEmployeeInput]).2).isSome = true ∧
    (LoadEmployeesFromInput { employees := [], schedules := [] }
        [badEmployeeInput]).1 ≠ { employees := [], schedules := [] } ∧
    (LoadEmployeesFromInput { employees := [], schedules := [] }
        [badEmployeeInput]).1.employees =
      [{ id := 1, name := "Delphine", startDate := 19730 }] := by
  refine ⟨by decide, ?_, by decide⟩
  intro h
  have h2 := congrArg (fun st => st.employees.length) h
  revert h2
  decide

/-- C4 amended: a batch containing an unparseable slot fails with a
validation error, but the employee record has already been persisted when
the failure is detected, so the store does observe a partial application of
the batch (the per-row repository calls are not wrapped in a transaction). -/
theorem loadEmployees_badSlot_c4 (st : Store) (emp : EmployeeInput) (sd : Int)
    (hd : parseDate emp.startDate = some sd) (hb : hasBadSlot emp.weeks = true) :
    ((LoadEmployeesFromInput st [emp]).2).isSome = true ∧
    (LoadEmployeesFromInput st [emp]).1.employees =
      st.employees ++
        [{ id := st.employees.length + 1, name := emp.name, startDate := sd }] := by
  simp only [LoadEmployeesFromInput, hd]
  have herr := loadWeeks_err (st.employees.length + 1) emp.weeks
    { st with employees := st.employees ++
        [{ id := st.employees.length + 1, name := emp.name, startDate := sd }] }
  rw [hb] at herr
  have hemp := loadWeeks_employees (st.employees.length + 1) emp.weeks
    { st with employees := st.employees ++
        [{ id := st.employees.length + 1, name := emp.name, startDate := sd }] }
  cases h2 : (loadWeeks { st with employees := st.employees ++
      [{ id := st.employees.length + 1, name := emp.name, startDate := sd }] }
      (st.employees.length + 1) emp.weeks).2 with
  | none => rw [h2] at herr; exact absurd herr (by simp)
  | some e =>
    simp only [h2]
    exact ⟨rfl, hemp⟩

/-- C4 witness: the amended statement instantiated at the concrete bad
batch. -/
theorem loadEmployees_badSlot_c4_witness :
    ((LoadEmployeesFromInput { employees := [], schedules := [] }
        [badEmployeeInput]).2).isSome = true ∧
    (LoadEmployeesFromInput { employees := [], schedules := [] }
        [badEmployeeInput]).1.employees =
      ([] : List StoredEmployee) ++
        [{ id := 1, name := badEmployeeInput.name, startDate := 19730 }] :=
  loadEmployees_badSlot_c4 { employees := [], schedules := [] }
    badEmployeeInput 19730 (by decide) (by decide)

/-! ### C6: content hashing -/

theorem charToNat_inj : ∀ {a b : Char}, a.toNat = b.toNat → a = b := by
  intro a b h
  apply Char.ext
  apply UInt32.ext
  exact h

theorem lexLeChars_total : ∀ a b : List Char,
    lexLeChars a b = true ∨ lexLeChars b a = true := by
  intro a
  induction a with
  | nil => intro b; left; rfl
  | cons x s ih =>
    intro b
    cases b with
    | nil => right; rfl
    | cons y t =>
      unfold lexLeChars
      by_cases h1 : x.toNat < y.toNat
      · left; rw [if_pos h1]
      · by_cases h2 : y.toNat < x.toNat
        · right; rw [if_pos h2]
        · rw [if_neg h1, if_neg h2, if_neg h2, if_neg h1]
          exact ih t

theorem lexLeChars_antisymm : ∀ a b : List Char,
    lexLeChars a b = true → lexLeChars b a = true → a = b := by
  intro a
  induction a with
  | nil =>
    intro b h1 h2
    cases b with
    | nil => rfl
    | cons y t => exact absurd h2 (by simp [lexLeChars])
  | cons x s ih =>
    intro b h1 h2
    cases b with
    | nil => exact absurd h1 (by simp [lexLeChars])
    | cons y t =>
      unfold lexLeChars at h1 h2
      by_cases hxy : x.toNat < y.toNat
      · rw [if_neg (by omega), if_pos hxy] at h2
        exact absurd h2 (by simp)
      · by_cases hyx : y.toNat < x.toNat
        · rw [if_neg (by omega), if_pos hyx] at h1
          exact absurd h1 (by simp)
        · rw [if_neg hxy, if_neg hyx] at h1
          rw [if_neg hyx, if_neg hxy] at h2
          have hx : x = y := charToNat_inj (by omega)
          rw [hx, ih t h1 h2]

theorem lexLeChars_trans : ∀ a b c : List Char,
    lexLeChars a b = true → lexLeChars b c = true → lexLeChars a c = true := by
  intro a
  induction a with
  | nil => intro b c h1 h2; rfl
  | cons x s ih =>
    intro b c h1 h2
    cases b with
    | nil => exact absurd h1 (by simp [lexLeChars])
    | cons y t =>
      cases c with
      | nil => exact absurd h2 (by simp [lexLeChars])
      | cons z u =>
        unfold lexLeChars at h1 h2 ⊢
        by_cases hxy : x.toNat < y.toNat
        · by_cases hyz : y.toNat < z.toNat
          · rw [if_pos (by omega)]
          · rw [if_neg hyz] at h2
            by_cases hzy : z.toNat < y.toNat
            · rw [if_pos hzy] at h2
              exact absurd h2 (by simp)
            · rw [if_pos (by omega)]
        · rw [if_neg hxy] at h1
          by_cases hyx : y.toNat < x.toNat
          · rw [if_pos hyx] at h1
            exact absurd h1 (by simp)
          · rw [if_neg hyx] at h1
            by_cases hyz : y.toNat < z.toNat
            · rw [if_pos (by omega)]
            · rw [if_neg hyz] at h2
              by_cases hzy : z.toNat < y.toNat
              · rw [if_pos hzy] at h2
                exact absurd h2 (by simp)
              · rw [if_neg hzy] at h2
                rw [if_neg (by omega), if_neg (by omega)]
                exact ih t u h1 h2

theorem keyLe_total (p q : String × Json) : keyLe p q = true ∨ keyLe q p = true :=
  lexLeChars_total p.1.data q.1.data

theorem keyLe_key_eq (p q : String × Json)
    (h1 : keyLe p q = true) (h2 : keyLe q p = true) : p.1 = q.1 :=
  String.ext (lexLeChars_antisymm _ _ h1 h2)

theorem keyLe_trans (p q r : String × Json)
    (h1 : keyLe p q = true) (h2 : keyLe q r = true) : keyLe p r = true :=
  lexLeChars_trans _ _ _ h1 h2

theorem insertField_perm (p : String × Json) :
    ∀ l : List (String × Json), (insertField p l).Perm (p :: l) := by
  intro l
  induction l with
  | nil => exact List.Perm.refl _
  | cons q t ih =>
    unfold insertField
    split
    · exact List.Perm.refl _
    · exact (List.Perm.cons q ih).trans (List.Perm.swap p q t)

theorem sortFields_perm : ∀ l : List (String × Json), (sortFields l).Perm l := by
  intro l
  induction l with
  | nil => exact List.Perm.refl _
  | cons p t ih =>
    unfold sortFields
    exact (insertField_perm p (sortFields t)).trans (List.Perm.cons p ih)

theorem insertField_pairwise (p : String × Json) :
    ∀ l : List (String × Json),
      l.Pairwise (fun a b => keyLe a b = true) →
      (insertField p l).Pairwise (fun a b => keyLe a b = true) := by
  intro l
  induction l with
  | nil => intro h; exact List.pairwise_singleton _ p
  | cons q t ih =>
    intro h
    rw [List.pairwise_cons] at h
    unfold insertField
    split
    · rename_i hle
      rw [List.pairwise_cons]
      refine ⟨?_, List.pairwise_cons.mpr h⟩
      intro b hb
      rcases List.mem_cons.mp hb with rfl | hbt
      · exact hle
      · exact keyLe_trans p q b hle (h.1 b hbt)
    · rename_i hnle
      have hqp : keyLe q p = true := by
        rcases keyLe_total p q with hh | hh
        · exact absurd hh hnle
        · exact hh
      rw [List.pairwise_cons]
      refine ⟨?_, ih h.2⟩
      intro b hb
      have hmem := (insertField_perm p t).mem_iff.mp hb
      rcases List.mem_cons.mp hmem with rfl | hbt
      · exact hqp
      · exact h.1 b hbt

theorem sortFields_pairwise : ∀ l : List (String × Json),
    (sortFields l).Pairwise (fun a b => keyLe a b = true) := by
  intro l
  induction l with
  | nil => exact List.Pairwise.nil
  | cons p t ih =>
    unfold sortFields
    exact insertField_pairwise p (sortFields t) ih

theorem nodupKeysB_iff_pairwise : ∀ l : List (String × Json),
    nodupKeysB l = true ↔ l.Pairwise (fun a b => ¬ a.1 = b.1) := by
  intro l
  induction l with
  | nil => simp [nodupKeysB]
  | cons p t ih =>
    obtain ⟨k, v⟩ := p
    rw [List.pairwise_cons, ← ih]
    simp only [nodupKeysB, Bool.and_eq_true, Bool.not_eq_true', List.any_eq_false,
      beq_iff_eq]
    constructor
    · rintro ⟨h1, h2⟩
      exact ⟨fun b hb hk => h1 b hb hk.symm, h2⟩
    · rintro ⟨h1, h2⟩
      exact ⟨fun b hb hk => h1 b hb hk.symm, h2⟩

theorem sortFields_eq_of_perm (l1 l2 : List (String × Json))
    (hp : l1.Perm l2) (hnd : l1.Pairwise (fun a b => ¬ a.1 = b.1)) :
    sortFields l1 = sortFields l2 := by
  have hsym : ∀ {a b : String × Json}, (¬ a.1 = b.1) → ¬ b.1 = a.1 :=
    fun h heq => h heq.symm
  have hnd2 : l2.Pairwise (fun a b => ¬ a.1 = b.1) :=
    (hp.pairwise_iff hsym).mp hnd
  have hnds1 : (sortFields l1).Pairwise (fun a b => ¬ a.1 = b.1) :=
    ((sortFields_perm l1).pairwise_iff hsym).mpr hnd
  have hnds2 : (sortFields l2).Pairwise (fun a b => ¬ a.1 = b.1) :=
    ((sortFields_perm l2).pairwise_iff hsym).mpr hnd2
  have hanti : IsAntisymm (String × Json)
      (fun a b => keyLe a b = true ∧ ¬ a.1 = b.1) :=
    ⟨fun a b h1 h2 => absurd (keyLe_key_eq a b h1.1 h2.1) h1.2⟩
  exact @List.eq_of_perm_of_sorted _
    (fun a b => keyLe a b = true ∧ ¬ a.1 = b.1) hanti _ _
    ((sortFields_perm l1).trans (hp.trans (sortFields_perm l2).symm))
    ((sortFields_pairwise l1).and hnds1)
    ((sortFields_pairwise l2).and hnds2)

theorem normalizeFields_eq_map : ∀ l : List (String × Json),
    normalizeFields l = l.map (fun p => (p.1, normalize p.2)) := by
  intro l
  induction l with
  | nil => rfl
  | cons p t ih =>
    obtain ⟨k, v⟩ := p
    simp only [normalizeFields, List.map_cons, ih]

theorem keyPermFields_keys : ∀ {s t : List (String × Json)},
    KeyPermFields s t → s.map Prod.fst = t.map Prod.fst
  | _, _, .nil => rfl
  | _, _, .cons _ h => by
    rw [List.map_cons, List.map_cons, keyPermFields_keys h]

theorem pairwise_keys_of_map_eq {s t : List (String × Json)}
    (h : s.map Prod.fst = t.map Prod.fst)
    (hp : s.Pairwise (fun a b => ¬ a.1 = b.1)) :
    t.Pairwise (fun a b => ¬ a.1 = b.1) := by
  have hs : (s.map Prod.fst).Pairwise (fun a b => ¬ a = b) :=
    List.pairwise_map.mpr hp
  rw [h] at hs
  exact List.pairwise_map.mp hs

mutual
theorem kp_norm : ∀ {v w : Json}, KeyPerm v w → wellFormedB v = true →
    normalize v = normalize w
  | _, _, .null, _ => rfl
  | _, _, .bool _, _ => rfl
  | _, _, .num _, _ => rfl
  | _, _, .str _, _ => rfl
  | _, _, .arr hl, hwf => by
    simp only [normalize]
    simp only [wellFormedB] at hwf
    exact congrArg Json.arr (kpl_norm hl hwf)
  | _, _, .obj hf hp, hwf => by
    rename_i l l' l''
    simp only [normalize]
    simp only [wellFormedB, Bool.and_eq_true] at hwf
    have h1 : normalizeFields l = normalizeFields l' := kpf_norm hf hwf.2
    have hndl : l.Pairwise (fun a b => ¬ a.1 = b.1) :=
      (nodupKeysB_iff_pairwise l).mp hwf.1
    have hndl2 : l'.Pairwise (fun a b => ¬ a.1 = b.1) :=
      pairwise_keys_of_map_eq (keyPermFields_keys hf) hndl
    have hndn : (normalizeFields l').Pairwise (fun a b => ¬ a.1 = b.1) := by
      rw [normalizeFields_eq_map]
      exact List.pairwise_map.mpr hndl2
    have hperm : (normalizeFields l').Perm (normalizeFields l'') := by
      rw [normalizeFields_eq_map, normalizeFields_eq_map]
      exact hp.map _
    have h2 : sortFields (normalizeFields l') = sortFields (normalizeFields l'') :=
      sortFields_eq_of_perm _ _ hperm hndn
    rw [h1, h2]
theorem kpl_norm : ∀ {s t : List Json}, KeyPermList s t →
    wellFormedListB s = true → normalizeList s = normalizeList t
  | _, _, .nil, _ => rfl
  | _, _, .cons hx hs, hwf => by
    simp only [wellFormedListB, Bool.and_eq_true] at hwf
    simp only [normalizeList]
    rw [kp_norm hx hwf.1, kpl_norm hs hwf.2]
theorem kpf_norm : ∀ {s t : List (String × Json)}, KeyPermFields s t →
    wellFormedFieldsB s = true → normalizeFields s = normalizeFields t
  | _, _, .nil, _ => rfl
  | _, _, .cons hv hs, hwf => by
    simp only [wellFormedFieldsB, Bool.and_eq_true] at hwf
    simp only [normalizeFields]
    rw [kp_norm hv hwf.1, kpf_norm hs hwf.2]
end

mutual
theorem keyPerm_refl : ∀ v : Json, KeyPerm v v
  | .null => .null
  | .bool b => .bool b
  | .num s => .num s
  | .str s => .str s
  | .arr l => .arr (keyPermList_refl l)
  | .obj l => .obj (keyPermFields_refl l) (List.Perm.refl l)
theorem keyPermList_refl : ∀ l : List Json, KeyPermList l l
  | [] => .nil
  | x :: t => .cons (keyPerm_refl x) (keyPermList_refl t)
theorem keyPermFields_refl : ∀ l : List (String × Json), KeyPermFields l l
  | [] => .nil
  | (_, v) :: t => .cons (keyPerm_refl v) (keyPermFields_refl t)
end

/-- C6: the hash is invariant under reordering of object keys at any
nesting depth (for payloads with duplicate-free keys, the only ones Go maps
can represent), and two payloads differing in a single leaf value hash
differently. -/
theorem hashJSON_c6 :
    (∀ v w : Json, wellFormedB v = true → KeyPerm v w → HashJSON v = HashJSON w) ∧
    HashJSON (Json.obj [("a", Json.num "1")]) ≠
      HashJSON (Json.obj [("a", Json.num "2")]) := by
  constructor
  · intro v w hwf hkp
    unfold HashJSON
    rw [kp_norm hkp hwf]
  · decide

/-- C6 witness: a two-level payload equals its key-reordered form. -/
theorem hashJSON_c6_witness :
    HashJSON (Json.obj [("a", Json.num "1"),
      ("b", Json.obj [("c", Json.str "x"), ("d", Json.bool true)])]) =
    HashJSON (Json.obj [("b", Json.obj [("d", Json.bool true), ("c", Json.str "x")]),
      ("a", Json.num "1")]) :=
  hashJSON_c6.1 _ _ (by decide)
    (KeyPerm.obj
      (KeyPermFields.cons (keyPerm_refl _)
        (KeyPermFields.cons
          (KeyPerm.obj
            (KeyPermFields.cons (keyPerm_refl _)
              (KeyPermFields.cons (keyPerm_refl _) KeyPermFields.nil))
            (List.Perm.swap _ _ _))
          KeyPermFields.nil))
      (List.Perm.swap _ _ _))

example : sha256Hex [97, 98, 99] =
    "ba7816bf8f01cfea414140de5dae2223b00361a396177a9cb410ff61f20015ad" := by decide

example : serialize (normalize (Json.obj [("b", Json.num "1"), ("a", Json.str "x")])) =
    [123, 34, 97, 34, 58, 34, 120, 34, 44, 34, 98, 34, 58, 49, 125] := by decide

end ApiServer
